import Mathlib

/-
Verification of the monthly aggregation and comparison core of the
budget-tracker client (sources: src/src/components/Dashboard.tsx,
src/src/components/Expenses.tsx, src/src/components/Reports.tsx, and the
unnamed helper modules).

Modelling conventions:
* JavaScript numbers that flow through the aggregation code are modelled as
  `Option ℚ`: `some q` is a finite number, `none` stands for a non-finite
  value (`NaN`, the result of touching an absent field with arithmetic).
* JavaScript `Date` values are modelled at day granularity as a
  (year, monthIndex, day) triple; `new Date(y, m, d)` normalisation (month
  overflow carrying into the year, invalid day rolling into the next month)
  is modelled by `mkDate`.
* Firestore collections are modelled as lists of plain records; `Map`
  objects as association lists in insertion order (JS `Map` preserves
  insertion order and `set` on an existing key updates in place).
-/

namespace BudgetTracker

/-- A JavaScript number as seen by the aggregation code: `some q` is a finite
value, `none` is a non-finite value (`NaN`, or the result of adding an
absent/undefined field). -/
abbrev OptQ := Option ℚ

/-- JavaScript `+` on numbers: if either operand is non-finite the result is
non-finite (NaN propagates). -/
def jsAdd : OptQ → OptQ → OptQ
  | some a, some b => some (a + b)
  | _, _ => none

/-- JavaScript truthiness default `x || 0`: a non-finite (`NaN`/`undefined`)
value and `0` itself both give `0`; any other finite value is kept.  On a
finite `q` the result is `q` in every case. -/
def or0 : OptQ → ℚ
  | some q => q
  | none => 0

/-- A calendar date at day granularity, as the JS `Date` accessors expose it:
`year` = `getFullYear()`, `month` = `getMonth()` (0–11), `day` = `getDate()`
(1-based). -/
structure JSDate where
  year : Int
  month : Nat
  day : Nat
deriving DecidableEq

/-- Gregorian leap-year rule used by JS `Date`. -/
def isLeap (y : Int) : Bool := y % 4 == 0 && (y % 100 != 0 || y % 400 == 0)

/-- Number of days of 0-indexed month `m` of year `y`. -/
def daysInMonth (y : Int) (m : Nat) : Nat :=
  match m with
  | 1 => if isLeap y then 29 else 28
  | 3 | 5 | 8 | 10 => 30
  | _ => 31

/-- Model of the JS `new Date(year, monthIndex, day)` constructor (and of
`setMonth`, which uses the same `MakeDay` normalisation) for day arguments
`1 ≤ d ≤ 31`: the month argument may be any integer and is floor-normalised
into the year (for the positive divisor 12, euclidean `/`//`%` agree with
floor division); a day beyond the end of the resulting month rolls over into
the following month (for `d ≤ 31` a single roll suffices). -/
def mkDate (y m : Int) (d : Nat) : JSDate :=
  let y1 := y + m / 12
  let m1 := (m % 12).toNat
  let dim := daysInMonth y1 m1
  if d ≤ dim then ⟨y1, m1, d⟩
  else if m1 = 11 then ⟨y1 + 1, 0, d - dim⟩
  else ⟨y1, m1 + 1, d - dim⟩

/-- Chronological strict order on dates (lexicographic on year, month, day;
this is how JS `Date`/Firestore `Timestamp` values compare for distinct
days). -/
def dateLT (a b : JSDate) : Prop :=
  a.year < b.year ∨ (a.year = b.year ∧
    (a.month < b.month ∨ (a.month = b.month ∧ a.day < b.day)))

/-- Chronological non-strict order on dates. -/
def dateLE (a b : JSDate) : Prop :=
  a.year < b.year ∨ (a.year = b.year ∧
    (a.month < b.month ∨ (a.month = b.month ∧ a.day ≤ b.day)))

instance (a b : JSDate) : Decidable (dateLT a b) := by
  unfold dateLT; infer_instance

instance (a b : JSDate) : Decidable (dateLE a b) := by
  unfold dateLE; infer_instance

/-- An expense record as the aggregation code reads it from a snapshot. -/
structure Expense where
  amount : OptQ
  categoryId : String
  date : JSDate
deriving DecidableEq

namespace Dashboard

/-- Dashboard.tsx `monthStart`: `new Date(d.getFullYear(), d.getMonth(), 1)`. -/
def monthStart (d : JSDate) : JSDate := mkDate d.year d.month 1

/-- Dashboard.tsx `nextMonthStart`:
`new Date(d.getFullYear(), d.getMonth() + 1, 1)`. -/
def nextMonthStart (d : JSDate) : JSDate := mkDate d.year ((d.month : Int) + 1) 1

/-- Dashboard.tsx `addMonths`: copies the date and calls
`copy.setMonth(copy.getMonth() + delta)` — note that the day-of-month of `d`
is kept, so `mkDate` may roll it into a later month. -/
def addMonths (d : JSDate) (delta : Int) : JSDate :=
  mkDate d.year ((d.month : Int) + delta) d.day

/-- Dashboard.tsx `currentTotal` / `prevTotal`:
`expenses.reduce((sum, e) => sum + e.amount, 0)` (no guard on `e.amount`). -/
def total (recs : List Expense) : OptQ :=
  recs.foldl (fun sum e => jsAdd sum e.amount) (some 0)

/-- Dashboard.tsx `change`: `currentTotal - prevTotal`. -/
def change (prev curr : ℚ) : ℚ := curr - prev

/-- Dashboard.tsx `pctChange`:
`prevTotal === 0 ? (currentTotal > 0 ? 100 : 0) : (change / prevTotal) * 100`. -/
def pctChange (prev curr : ℚ) : ℚ :=
  if prev = 0 then (if 0 < curr then 100 else 0) else (change prev curr) / prev * 100

end Dashboard

namespace Expenses

/-- Expenses.tsx `addMonths`:
`new Date(d.getFullYear(), d.getMonth() + delta, 1)` — unlike the Dashboard
version, the result is always resolved to day 1. -/
def addMonths (d : JSDate) (delta : Int) : JSDate :=
  mkDate d.year ((d.month : Int) + delta) 1

/-- Expenses.tsx `total`:
`items.reduce((sum, x) => sum + (x.amount || 0), 0)` — each amount is
defaulted through `|| 0` before being added. -/
def total (recs : List Expense) : OptQ :=
  recs.foldl (fun sum e => jsAdd sum (some (or0 e.amount))) (some 0)

end Expenses

/-- A stored category document as used by `ensureUncategorized`
(src/unnamed/part_004); the server-assigned `createdAt` timestamp and the
document id are irrelevant to the claims and omitted. -/
structure CatDoc where
  userId : String
  name : String
deriving DecidableEq

/-- src/unnamed/part_004 `ensureUncategorized(userId)`: queries the
`categories` collection for `userId == uid` with `limit(1)`; if the snapshot
is non-empty it returns without writing, otherwise it adds a document
`{ userId, name: "Uncategorized", createdAt: serverTimestamp() }`. -/
def ensureUncategorized (uid : String) (store : List CatDoc) : List CatDoc :=
  if store.any (fun c => c.userId == uid) then store
  else store ++ [⟨uid, "Uncategorized"⟩]

/-- The record filter used by the month queries
(`where("date", ">=", start)` and `where("date", "<", end)`): a half-open
window on the reference date's month. -/
def inMonthWindow (t ref : JSDate) : Prop :=
  dateLE (Dashboard.monthStart ref) t ∧ dateLT t (Dashboard.nextMonthStart ref)

/-- An expense document as written by the Expenses form (`payload`); the
server-assigned timestamps are irrelevant to the claims and omitted.  The
`amount` field holds whatever number the form parsed. -/
structure ExpenseDoc where
  id : String
  userId : String
  amount : OptQ
  categoryId : String
  note : String
  date : String
deriving DecidableEq

namespace Expenses

/-- The state of the expense form at submit time.  `amountNum` models
`Number(form.amount)`, the numeric parse of the amount text field: `some q`
for a finite parse (an empty field parses to `0`), `none` for `NaN` or an
infinite value (so `Number.isFinite` is `false` exactly on `none`). -/
structure FormState where
  amountNum : OptQ
  categoryId : String
  note : String
  date : String

/-- Expenses.tsx `amountValid`:
`Number.isFinite(amountNum) && amountNum > 0`. -/
def amountValid (f : FormState) : Bool :=
  match f.amountNum with
  | some q => decide (0 < q)
  | none => false

/-- Expenses.tsx `categoryValid`: `form.categoryId.trim().length > 0`. -/
def categoryValid (f : FormState) : Bool :=
  decide (0 < f.categoryId.trim.length)

/-- Expenses.tsx `dateValid`: the regex test
`/^\d{4}-\d{2}-\d{2}$/.test(form.date)`. -/
def dateValid (f : FormState) : Bool :=
  match f.date.toList with
  | [a, b, c, d, s1, e, g, s2, h, i] =>
    a.isDigit && b.isDigit && c.isDigit && d.isDigit && s1 = '-' &&
      e.isDigit && g.isDigit && s2 = '-' && h.isDigit && i.isDigit
  | _ => false

/-- Expenses.tsx `formValid`: `amountValid && categoryValid && dateValid`. -/
def formValid (f : FormState) : Bool :=
  amountValid f && categoryValid f && dateValid f

/-- The `payload` object built inside `handleSubmit` (note is trimmed;
`note.trim() || ""` equals `note.trim()`). -/
def payloadOf (uid : String) (f : FormState) (docId : String) : ExpenseDoc :=
  ⟨docId, uid, f.amountNum, f.categoryId, f.note.trim, f.date⟩

/-- Expenses.tsx `handleSubmit`, acting on the store: returns unchanged if
there is no user, the form is invalid, or a save is in flight; otherwise it
overwrites the edited document (`updateDoc`) or appends a new one
(`addDoc`, whose generated id is passed as `newId`). -/
def handleSubmit (user : Option String) (saving : Bool) (editingId : Option String)
    (newId : String) (f : FormState) (store : List ExpenseDoc) : List ExpenseDoc :=
  match user with
  | none => store
  | some uid =>
    if !formValid f || saving then store
    else
      match editingId with
      | some docId =>
        store.map (fun d => if d.id = docId then payloadOf uid f docId else d)
      | none => store ++ [payloadOf uid f newId]

end Expenses

/-- JS `Map.prototype.get` on a map represented as an association list in
insertion order. -/
def getVal {α : Type} : List (String × α) → String → Option α
  | [], _ => none
  | (k, v) :: rest, id => if k = id then some v else getVal rest id

/-- Model of `categoryMap.get(id) || dflt`: a missing entry — and an empty name,
which is falsy — fall back to the sentinel label. -/
def nameOr (cmap : List (String × String)) (id : String) (dflt : String) : String :=
  match getVal cmap id with
  | some n => if n = "" then dflt else n
  | none => dflt

/-- Model of `map.get(k) || 0` inside the grouping fold: an absent bucket and a
non-finite stored bucket value both coerce to `0`. -/
def mapGetOr0 (m : List (String × OptQ)) (k : String) : ℚ :=
  match getVal m k with
  | some v => or0 v
  | none => 0

/-- JS `Map.prototype.set`: update an existing key in place (its position in
iteration order is kept) or append a new key at the end. -/
def upsert (k : String) (v : OptQ) : List (String × OptQ) → List (String × OptQ)
  | [] => [(k, v)]
  | (k', v') :: rest => if k' = k then (k, v) :: rest else (k', v') :: upsert k v rest

/-- One step of the grouping fold of `categoryData`:
`map.set(e.categoryId, (map.get(e.categoryId) || 0) + e.amount)`. -/
def gstep (m : List (String × OptQ)) (e : Expense) : List (String × OptQ) :=
  upsert e.categoryId (jsAdd (some (mapGetOr0 m e.categoryId)) e.amount) m

/-- The grouping `Map` built by `categoryData`'s `forEach` over the records,
in first-encountered key order. -/
def groupTotals (recs : List Expense) : List (String × OptQ) :=
  recs.foldl gstep []

/-- The per-bucket accumulation semantics, isolated: folding the amounts of
one category's records with `(bucket || 0) + amount`. -/
def bucketFold (init : OptQ) (l : List Expense) : OptQ :=
  l.foldl (fun cur e => jsAdd (some (or0 cur)) e.amount) init

/-- An entry of the ranked category breakdown: `{ name, value }`. -/
structure CatEntry where
  name : String
  value : OptQ
deriving DecidableEq

/-- Model of `Array.from(map.entries()).map(...)` into name/value entries:
the grouped totals in first-encountered order, with the category name
resolved through the lookup (sentinel `dflt` when unmatched). -/
def entriesOf (dflt : String) (recs : List Expense)
    (cmap : List (String × String)) : List CatEntry :=
  (groupTotals recs).map (fun kv => ⟨nameOr cmap kv.1 dflt, kv.2⟩)

/-- The comparator discipline of the stable sort
`.sort((a, b) => b.value - a.value)`: `entryGe x y` says the earlier-input
element `x` may stay in front of `y` — true unless the comparator strictly
orders `y` before `x` (on finite values, `y.value ≤ x.value`; a non-finite
comparison result leaves the pair in input order). -/
def entryGe (x y : CatEntry) : Bool :=
  match y.value, x.value with
  | some b, some a => decide (b ≤ a)
  | _, _ => true

/-- Stable insertion into a descending-sorted list: the inserted element
came earlier in the input than every list element, so it is placed before
the first element it is not strictly after. -/
def insertDesc (x : CatEntry) : List CatEntry → List CatEntry
  | [] => [x]
  | y :: ys => if entryGe x y then x :: y :: ys else y :: insertDesc x ys

/-- Stable descending sort by `value` — the canonical model of the stable
JS `Array.prototype.sort` with comparator `(a, b) => b.value - a.value`. -/
def sortDesc : List CatEntry → List CatEntry
  | [] => []
  | x :: xs => insertDesc x (sortDesc xs)

/-- Dashboard.tsx `categoryData`: group by category, resolve names with
fallback label "Other", sort descending by total. -/
def Dashboard.categoryData (recs : List Expense)
    (cmap : List (String × String)) : List CatEntry :=
  sortDesc (entriesOf "Other" recs cmap)

/-- Reports.tsx `categoryData`: same pipeline as the Dashboard one but with
fallback label "Unknown". -/
def Reports.categoryData (recs : List Expense)
    (cmap : List (String × String)) : List CatEntry :=
  sortDesc (entriesOf "Unknown" recs cmap)

/-- The finite rational a breakdown entry's value denotes (0 for a
non-finite value); used to state sortedness and sums. -/
def valQ (e : CatEntry) : ℚ := or0 e.value

/-- Fold a list of JS numbers with JS `+` starting from 0. -/
def sumList (l : List OptQ) : OptQ := l.foldl jsAdd (some 0)

/-- The sum of the `value` fields of a breakdown. -/
def sumVals (l : List CatEntry) : OptQ := sumList (l.map CatEntry.value)

namespace Reports

/-- Reports.tsx `totalYear`: `expenses.reduce((sum, e) => sum + e.amount, 0)`. -/
def totalYear (recs : List Expense) : OptQ :=
  recs.foldl (fun sum e => jsAdd sum e.amount) (some 0)

/-- One step of the `monthlyData` fold: `arr[e.date.getMonth()] += e.amount`. -/
def mstep (arr : List OptQ) (e : Expense) : List OptQ :=
  arr.set e.date.month (jsAdd (arr.getD e.date.month (some 0)) e.amount)

/-- Reports.tsx `monthlyData`, accumulation phase:
`new Array(12).fill(0)` then `expenses.forEach(e => arr[month] += amount)`. -/
def monthlyArr (recs : List Expense) : List OptQ :=
  recs.foldl mstep (List.replicate 12 (some 0))

/-- Reports.tsx `monthlyData`, presentation phase: each slot paired with its
month index (the locale month label is determined by the index and is a
presentation concern). -/
def monthlyData (recs : List Expense) : List (Nat × OptQ) :=
  (monthlyArr recs).enum

end Reports

/-- C1 (counterexample): the claim asserts that for every pair of period
totals, `prev ≤ 0` and `curr > 0` give `pct = 100`; the code only special-
cases `prev === 0`, so at `prev = -100, curr = 500` (where `prev ≤ 0` and
`curr > 0`) it computes `(500 - (-100)) / (-100) * 100 = -600`, not `100`. -/
theorem pctChange_neg_prev_counterexample :
    Dashboard.pctChange (-100) 500 = -600 ∧
    (-100 : ℚ) ≤ 0 ∧ (0 : ℚ) < 500 ∧ (-600 : ℚ) ≠ 100 := by
  refine ⟨?_, by norm_num, by norm_num, by norm_num⟩
  unfold Dashboard.pctChange Dashboard.change
  norm_num

/-- C1 (amended): the special cases apply exactly when `prev = 0` (not
`prev ≤ 0`): if `prev = 0` and `curr > 0` the result is 100; if `prev = 0`
and `curr ≤ 0` the result is 0; for `prev ≠ 0` the result is
`100 * (curr - prev) / prev`.  The spec's worked examples hold:
`(0, 500) ↦ 100`, `(0, 0) ↦ 0`, and `(200, 100)` gives delta `-100` and
pct `-50`. -/
theorem pctChange_amended (prev curr : ℚ) :
    (prev = 0 → 0 < curr → Dashboard.pctChange prev curr = 100) ∧
    (prev = 0 → curr ≤ 0 → Dashboard.pctChange prev curr = 0) ∧
    (prev ≠ 0 → Dashboard.pctChange prev curr = 100 * (curr - prev) / prev) ∧
    Dashboard.pctChange 0 500 = 100 ∧
    Dashboard.pctChange 0 0 = 0 ∧
    Dashboard.change 200 100 = -100 ∧
    Dashboard.pctChange 200 100 = -50 := by
  refine ⟨?_, ?_, ?_, ?_, ?_, ?_, ?_⟩
  · intro h hc; simp [Dashboard.pctChange, h, hc]
  · intro h hc; simp [Dashboard.pctChange, h, not_lt.mpr hc]
  · intro h
    simp only [Dashboard.pctChange, Dashboard.change, if_neg h]
    field_simp
    ring
  · norm_num [Dashboard.pctChange]
  · norm_num [Dashboard.pctChange]
  · norm_num [Dashboard.change]
  · norm_num [Dashboard.pctChange, Dashboard.change]

/-- C1 (witness): the amended statement instantiated at concrete totals. -/
theorem pctChange_amended_witness :
    Dashboard.pctChange 200 100 = -50 ∧ ((200 : ℚ) ≠ 0 →
      Dashboard.pctChange 200 100 = 100 * (100 - 200) / 200) :=
  ⟨(pctChange_amended 200 100).2.2.2.2.2.2, (pctChange_amended 200 100).2.2.1⟩

/-- C2: the Dashboard `addMonths` keeps the day-of-month, so on
2025-01-31 (a 31st) shifting by `+1` rolls through the invalid February 31
to 2025-03-03, and shifting back by `-1` lands on 2025-02-03 — February,
not the original January.  The claim (shift result always resolved to day 1,
round trip returns to the original (year, month)) fails on this code; the
Expenses.tsx `addMonths` does resolve to day 1 as the spec requires. -/
theorem dashboard_addMonths_overflow_bug :
    Dashboard.addMonths ⟨2025, 0, 31⟩ 1 = ⟨2025, 2, 3⟩ ∧
    Dashboard.addMonths (Dashboard.addMonths ⟨2025, 0, 31⟩ 1) (-1) = ⟨2025, 1, 3⟩ ∧
    (Dashboard.addMonths (Dashboard.addMonths ⟨2025, 0, 31⟩ 1) (-1)).month ≠
      (⟨2025, 0, 31⟩ : JSDate).month ∧
    (Dashboard.addMonths (Dashboard.addMonths ⟨2025, 0, 31⟩ 1) (-1)).day ≠ 1 := by
  refine ⟨?_, ?_, ?_, ?_⟩ <;> decide

/-- C10: `ensureUncategorized` appends the "Uncategorized" category exactly
when the user has no category at all; if any category of that user exists the
store is returned unchanged; and the operation is idempotent. -/
theorem ensureUncategorized_iff_empty (uid : String) (store : List CatDoc) :
    (ensureUncategorized uid store = store ++ [⟨uid, "Uncategorized"⟩] ↔
      ¬ ∃ c ∈ store, c.userId = uid) ∧
    ((∃ c ∈ store, c.userId = uid) → ensureUncategorized uid store = store) ∧
    ensureUncategorized uid (ensureUncategorized uid store) =
      ensureUncategorized uid store := by
  have hany : store.any (fun c => c.userId == uid) = true ↔ ∃ c ∈ store, c.userId = uid := by
    simp [List.any_eq_true]
  refine ⟨⟨?_, ?_⟩, ?_, ?_⟩
  · intro h hex
    rw [ensureUncategorized, if_pos (hany.mpr hex)] at h
    have := congrArg List.length h
    simp at this
  · intro hne
    rw [ensureUncategorized, if_neg (fun hc => hne (hany.mp hc))]
  · intro hex
    rw [ensureUncategorized, if_pos (hany.mpr hex)]
  · by_cases hex : ∃ c ∈ store, c.userId = uid
    · have h1 : ensureUncategorized uid store = store := by
        rw [ensureUncategorized, if_pos (hany.mpr hex)]
      simp only [h1]
    · have h1 : ensureUncategorized uid store = store ++ [⟨uid, "Uncategorized"⟩] := by
        rw [ensureUncategorized, if_neg (fun hc => hex (hany.mp hc))]
      rw [h1, ensureUncategorized, if_pos]
      simp

/-- C10 (witness): instantiated at a user with one existing category of a
different name — no write happens. -/
theorem ensureUncategorized_iff_empty_witness :
    ((∃ c ∈ [(⟨"u1", "Food"⟩ : CatDoc)], c.userId = "u1") →
      ensureUncategorized "u1" [⟨"u1", "Food"⟩] = [⟨"u1", "Food"⟩]) ∧
    ensureUncategorized "u1" (ensureUncategorized "u1" [⟨"u1", "Food"⟩]) =
      ensureUncategorized "u1" [⟨"u1", "Food"⟩] :=
  ⟨(ensureUncategorized_iff_empty "u1" [⟨"u1", "Food"⟩]).2.1,
   (ensureUncategorized_iff_empty "u1" [⟨"u1", "Food"⟩]).2.2⟩

/-- C4 (counterexample): the Dashboard period total has no guard on
`e.amount` (`reduce((sum, e) => sum + e.amount, 0)`), so a single record with
a non-finite amount makes the whole total non-numeric (`none`), contradicting
the claim that a malformed amount contributes zero and never poisons the
total. -/
theorem dashboard_total_nan_counterexample :
    Dashboard.total [⟨none, "c1", ⟨2025, 0, 15⟩⟩] = none ∧
    Dashboard.total [⟨none, "c1", ⟨2025, 0, 15⟩⟩] ≠ some 0 := by
  constructor
  · rfl
  · intro h
    simp [Dashboard.total, jsAdd] at h

/-- Helper: the Expenses total fold never leaves the finite numbers and
computes the plain sum of the `|| 0`-defaulted amounts. -/
theorem expenses_total_go (recs : List Expense) (q : ℚ) :
    recs.foldl (fun sum e => jsAdd sum (some (or0 e.amount))) (some q) =
      some (q + (recs.map (fun e => or0 e.amount)).sum) := by
  induction recs generalizing q with
  | nil => simp
  | cons e rest ih =>
    simp only [List.foldl_cons, List.map_cons, List.sum_cons]
    rw [show jsAdd (some q) (some (or0 e.amount)) = some (q + or0 e.amount) from rfl]
    rw [ih]
    ring_nf

/-- C4 (amended): the Expenses-page total (`sum + (x.amount || 0)`) does
treat an absent/non-finite amount as zero — it always equals the finite sum
of the defaulted amounts, and on amounts `[120, 45.5, 0]` it is `165.5`;
the Dashboard total (`sum + e.amount`, no guard) instead propagates a
non-numeric amount into a non-numeric total. -/
theorem expenses_total_defaults_amended (recs : List Expense) :
    Expenses.total recs = some ((recs.map (fun e => or0 e.amount)).sum) ∧
    Expenses.total
      [⟨some 120, "a", ⟨2025, 0, 1⟩⟩, ⟨some 45.5, "b", ⟨2025, 0, 2⟩⟩,
       ⟨some 0, "c", ⟨2025, 0, 3⟩⟩] = some 165.5 := by
  constructor
  · rw [Expenses.total, expenses_total_go]
    norm_num
  · rw [Expenses.total, expenses_total_go]
    norm_num [or0]

/-- C7: the write path issues no create and no update — the store is
unchanged — whenever the parsed amount is not a finite number strictly
greater than zero.  `none` covers a non-numeric or non-finite parse, and
`some q` with `q ≤ 0` covers the empty field (which parses to 0), zero and
negative inputs. -/
theorem handleSubmit_rejects_invalid_amount (user : Option String)
    (saving : Bool) (editingId : Option String) (newId : String)
    (f : Expenses.FormState) (store : List ExpenseDoc)
    (h : ∀ q : ℚ, f.amountNum = some q → q ≤ 0) :
    Expenses.handleSubmit user saving editingId newId f store = store := by
  have hval : Expenses.amountValid f = false := by
    unfold Expenses.amountValid
    cases hf : f.amountNum with
    | none => rfl
    | some q => exact decide_eq_false (not_lt.mpr (h q hf))
  cases user with
  | none => rfl
  | some uid => simp [Expenses.handleSubmit, Expenses.formValid, hval]

/-- C7 (witness): a submit with amount text parsing to `0` (e.g. an empty or
`"0"` field) leaves a concrete store unchanged. -/
theorem handleSubmit_rejects_invalid_amount_witness :
    Expenses.handleSubmit (some "u1") false none "doc9"
      ⟨some 0, "cat1", "lunch", "2025-01-15"⟩
      [⟨"doc1", "u1", some 10, "cat1", "", "2025-01-10"⟩] =
      [⟨"doc1", "u1", some 10, "cat1", "", "2025-01-10"⟩] :=
  handleSubmit_rejects_invalid_amount (some "u1") false none "doc9"
    ⟨some 0, "cat1", "lunch", "2025-01-15"⟩
    [⟨"doc1", "u1", some 10, "cat1", "", "2025-01-10"⟩]
    (fun _ hq => le_of_eq (Option.some.inj hq).symm)

/-- Every month has at least one day. -/
theorem daysInMonth_pos (y : Int) (m : Nat) : 1 ≤ daysInMonth y m := by
  unfold daysInMonth
  split
  all_goals first
  | (split <;> norm_num)
  | norm_num

/-- Constructing `new Date(y, m, d)` on an in-range month and day is already normalised. -/
theorem mkDate_valid (y : Int) (m d : Nat) (hm : m < 12)
    (hd2 : d ≤ daysInMonth y m) : mkDate y m d = ⟨y, m, d⟩ := by
  have h1 : (m : Int) / 12 = 0 := by omega
  have h2 : (m : Int) % 12 = m := by omega
  have h3 : ((m : Int)).toNat = m := by omega
  simp only [mkDate, h1, h2, h3, add_zero]
  rw [if_pos hd2]

/-- Constructing `new Date(y, m + 1, 1)` for an in-range month `m`: December wraps to
January of the next year, every other month moves to its successor. -/
theorem mkDate_next (y : Int) (m : Nat) (hm : m < 12) :
    mkDate y ((m : Int) + 1) 1 =
      if m = 11 then ⟨y + 1, 0, 1⟩ else ⟨y, m + 1, 1⟩ := by
  by_cases h : m = 11
  · subst h
    rw [if_pos rfl]
    have h1 : ((11 : Nat) : Int) + 1 = 12 := by norm_num
    rw [h1]
    have h2 : (12 : Int) / 12 = 1 := by norm_num
    have h3 : (12 : Int) % 12 = 0 := by norm_num
    have h4 : (0 : Int).toNat = 0 := rfl
    simp only [mkDate, h2, h3, h4]
    rw [if_pos (show 1 ≤ daysInMonth (y + 1) 0 from daysInMonth_pos _ _)]
  · have hm' : m + 1 < 12 := by omega
    have hc : ((m : Int) + 1) = ((m + 1 : Nat) : Int) := by push_cast; ring
    rw [if_neg h, hc, mkDate_valid y (m + 1) 1 hm' (daysInMonth_pos _ _)]

/-- C5: for a valid reference date `D`, `monthStart D` is the first day of
`D`'s month and `nextMonthStart D` the first day of the following month, with
`monthStart D ≤ D < nextMonthStart D`; the end bound equals
`addMonths(start, 1)`; and because filtering is half-open, no date can lie in
the windows of two adjacent months (months whose start is the first month's
end). -/
theorem monthBounds_correct (d : JSDate) (hm : d.month < 12) (hd1 : 1 ≤ d.day)
    (_hd2 : d.day ≤ daysInMonth d.year d.month) :
    dateLE (Dashboard.monthStart d) d ∧
    dateLT d (Dashboard.nextMonthStart d) ∧
    Dashboard.nextMonthStart d = Dashboard.addMonths (Dashboard.monthStart d) 1 ∧
    (∀ t d' : JSDate, Dashboard.monthStart d' = Dashboard.nextMonthStart d →
      ¬ (inMonthWindow t d ∧ inMonthWindow t d')) := by
  have hstart : Dashboard.monthStart d = ⟨d.year, d.month, 1⟩ :=
    mkDate_valid d.year d.month 1 hm (daysInMonth_pos _ _)
  have hnext := mkDate_next d.year d.month hm
  refine ⟨?_, ?_, ?_, ?_⟩
  · rw [hstart]
    unfold dateLE
    dsimp only
    omega
  · show dateLT d (mkDate d.year ((d.month : Int) + 1) 1)
    rw [hnext]
    by_cases h11 : d.month = 11
    · rw [if_pos h11]
      unfold dateLT
      dsimp only
      omega
    · rw [if_neg h11]
      unfold dateLT
      dsimp only
      omega
  · rw [hstart]
    rfl
  · rintro t d' heq ⟨⟨_, h2⟩, ⟨h3, _⟩⟩
    rw [heq] at h3
    unfold dateLE at h3
    unfold dateLT at h2
    omega

/-- C5 (witness): the month bounds law at the concrete date 2025-01-15. -/
theorem monthBounds_correct_witness :
    dateLE (Dashboard.monthStart ⟨2025, 0, 15⟩) ⟨2025, 0, 15⟩ ∧
    dateLT ⟨2025, 0, 15⟩ (Dashboard.nextMonthStart ⟨2025, 0, 15⟩) ∧
    Dashboard.nextMonthStart ⟨2025, 0, 15⟩ =
      Dashboard.addMonths (Dashboard.monthStart ⟨2025, 0, 15⟩) 1 ∧
    (∀ t d' : JSDate,
      Dashboard.monthStart d' = Dashboard.nextMonthStart ⟨2025, 0, 15⟩ →
      ¬ (inMonthWindow t ⟨2025, 0, 15⟩ ∧ inMonthWindow t d')) :=
  monthBounds_correct ⟨2025, 0, 15⟩ (by norm_num) (by norm_num) (by decide)

/- ───────── lemmas about the JS addition monoid ───────── -/

theorem jsAdd_comm (a b : OptQ) : jsAdd a b = jsAdd b a := by
  cases a <;> cases b <;> simp [jsAdd, add_comm]

theorem jsAdd_assoc (a b c : OptQ) : jsAdd (jsAdd a b) c = jsAdd a (jsAdd b c) := by
  cases a <;> cases b <;> cases c <;> simp [jsAdd, add_assoc]

theorem jsAdd_zero (a : OptQ) : jsAdd a (some 0) = a := by
  cases a <;> simp [jsAdd]

theorem zero_jsAdd (a : OptQ) : jsAdd (some 0) a = a := by
  cases a <;> simp [jsAdd]

theorem foldl_jsAdd_shift (l : List OptQ) (x : OptQ) :
    l.foldl jsAdd x = jsAdd x (sumList l) := by
  induction l generalizing x with
  | nil => simp [sumList, jsAdd_zero]
  | cons y ys ih =>
    rw [sumList, List.foldl_cons, List.foldl_cons, ih, zero_jsAdd, ih y,
      ← jsAdd_assoc]

theorem sumList_cons (y : OptQ) (ys : List OptQ) :
    sumList (y :: ys) = jsAdd y (sumList ys) := by
  rw [sumList, List.foldl_cons, zero_jsAdd, foldl_jsAdd_shift]

theorem sumList_finite (l : List OptQ) (h : ∀ x ∈ l, x.isSome) :
    sumList l = some ((l.map or0).sum) := by
  induction l with
  | nil => simp [sumList]
  | cons x xs ih =>
    obtain ⟨a, ha⟩ := Option.isSome_iff_exists.mp (h x (List.mem_cons_self x xs))
    rw [sumList_cons, ih (fun y hy => h y (List.mem_cons_of_mem x hy)), ha]
    simp [jsAdd, or0]

/- ───────── lemmas about the grouping map ───────── -/

/-- Evaluation form of `mapGetOr0` (match replaced by a default lookup). -/
theorem mapGetOr0_eq (m : List (String × OptQ)) (k : String) :
    mapGetOr0 m k = or0 ((getVal m k).getD none) := by
  unfold mapGetOr0
  cases h : getVal m k with
  | none => simp [or0]
  | some v => simp

/-- Evaluation form of `nameOr` (match replaced by a default lookup). -/
theorem nameOr_eq (cmap : List (String × String)) (id dflt : String) :
    nameOr cmap id dflt =
      if (getVal cmap id).getD dflt = "" then dflt
      else (getVal cmap id).getD dflt := by
  unfold nameOr
  cases h : getVal cmap id with
  | none => simp
  | some n => simp

theorem getVal_upsert_self (k : String) (v : OptQ) (m : List (String × OptQ)) :
    getVal (upsert k v m) k = some v := by
  induction m with
  | nil => simp [upsert, getVal]
  | cons p rest ih =>
    obtain ⟨k', v'⟩ := p
    by_cases h : k' = k
    · simp [upsert, h, getVal]
    · simp [upsert, h, getVal, ih]

theorem getVal_upsert_ne (k k' : String) (v : OptQ) (m : List (String × OptQ))
    (h : k' ≠ k) : getVal (upsert k v m) k' = getVal m k' := by
  induction m with
  | nil =>
    have hne : ¬ k = k' := fun hh => h hh.symm
    simp [upsert, getVal, hne]
  | cons p rest ih =>
    obtain ⟨k0, v0⟩ := p
    by_cases h0 : k0 = k
    · subst h0
      have hne : ¬ k0 = k' := fun hh => h hh.symm
      simp [upsert, getVal, hne]
    · by_cases h1 : k0 = k'
      · simp [upsert, getVal, h0, h1, h]
      · simp [upsert, getVal, h0, h1, h, ih]

theorem mem_upsert (p : String × OptQ) (k : String) (v : OptQ)
    (m : List (String × OptQ)) (hp : p ∈ upsert k v m) :
    p = (k, v) ∨ p ∈ m := by
  induction m with
  | nil => simpa [upsert] using hp
  | cons q rest ih =>
    obtain ⟨k0, v0⟩ := q
    by_cases h0 : k0 = k
    · rw [upsert, if_pos h0] at hp
      rcases List.mem_cons.mp hp with h | h
      · exact Or.inl h
      · exact Or.inr (List.mem_cons_of_mem _ h)
    · rw [upsert, if_neg h0] at hp
      rcases List.mem_cons.mp hp with h | h
      · exact Or.inr (h ▸ List.mem_cons_self _ _)
      · rcases ih h with h' | h'
        · exact Or.inl h'
        · exact Or.inr (List.mem_cons_of_mem _ h')

theorem getVal_mem {α : Type} (m : List (String × α)) (k : String) (v : α)
    (h : getVal m k = some v) : (k, v) ∈ m := by
  induction m with
  | nil => simp [getVal] at h
  | cons p rest ih =>
    obtain ⟨k0, v0⟩ := p
    by_cases h0 : k0 = k
    · rw [getVal, if_pos h0] at h
      obtain rfl := Option.some.inj h
      exact h0 ▸ List.mem_cons_self _ _
    · rw [getVal, if_neg h0] at h
      exact List.mem_cons_of_mem _ (ih h)

/-- The grouping fold, started from a map with an entry `v` at key `k`,
accumulates exactly the bucket fold of the records of that key. -/
theorem getVal_foldl_gstep_some (recs : List Expense) (k : String) :
    ∀ (acc : List (String × OptQ)) (v : OptQ), getVal acc k = some v →
      getVal (recs.foldl gstep acc) k =
        some (bucketFold v (recs.filter (fun r => r.categoryId == k))) := by
  induction recs with
  | nil =>
    intro acc v hv
    simpa [bucketFold] using hv
  | cons r rest ih =>
    intro acc v hv
    rw [List.foldl_cons]
    by_cases hc : r.categoryId = k
    · have hmg : mapGetOr0 acc r.categoryId = or0 v := by
        unfold mapGetOr0
        rw [hc, hv]
      have hget : getVal (gstep acc r) k = some (jsAdd (some (or0 v)) r.amount) := by
        rw [gstep, hmg, hc]
        exact getVal_upsert_self _ _ _
      rw [ih (gstep acc r) _ hget]
      have hfc : (r :: rest).filter (fun r => r.categoryId == k) =
          r :: rest.filter (fun r => r.categoryId == k) := by
        simp [List.filter_cons, hc]
      rw [hfc]
      rfl
    · have hget : getVal (gstep acc r) k = some v := by
        rw [gstep, getVal_upsert_ne _ _ _ _ (fun hh => hc hh.symm)]
        exact hv
      have hfc : (r :: rest).filter (fun r => r.categoryId == k) =
          rest.filter (fun r => r.categoryId == k) := by
        simp [List.filter_cons, hc]
      rw [hfc, ih (gstep acc r) _ hget]

/-- The grouping fold, started with no entry at key `k`, produces for that
key exactly the bucket fold (from 0) of its records — provided at least one
record of the key occurs. -/
theorem getVal_foldl_gstep_none (recs : List Expense) (k : String) :
    ∀ (acc : List (String × OptQ)), getVal acc k = none →
      recs.filter (fun r => r.categoryId == k) ≠ [] →
      getVal (recs.foldl gstep acc) k =
        some (bucketFold (some 0) (recs.filter (fun r => r.categoryId == k))) := by
  induction recs with
  | nil =>
    intro acc _ hne
    simp at hne
  | cons r rest ih =>
    intro acc hv hne
    rw [List.foldl_cons]
    by_cases hc : r.categoryId = k
    · have hmg : mapGetOr0 acc r.categoryId = 0 := by
        unfold mapGetOr0
        rw [hc, hv]
      have hget : getVal (gstep acc r) k = some (jsAdd (some 0) r.amount) := by
        rw [gstep, hmg, hc]
        exact getVal_upsert_self _ _ _
      rw [getVal_foldl_gstep_some rest k (gstep acc r) _ hget]
      have hfc : (r :: rest).filter (fun r => r.categoryId == k) =
          r :: rest.filter (fun r => r.categoryId == k) := by
        simp [List.filter_cons, hc]
      rw [hfc]
      rfl
    · have hget : getVal (gstep acc r) k = none := by
        rw [gstep, getVal_upsert_ne _ _ _ _ (fun hh => hc hh.symm)]
        exact hv
      have hfc : (r :: rest).filter (fun r => r.categoryId == k) =
          rest.filter (fun r => r.categoryId == k) := by
        simp [List.filter_cons, hc]
      rw [hfc] at hne ⊢
      exact ih (gstep acc r) hget hne

/- ───────── lemmas about the stable descending sort ───────── -/

theorem mem_insertDesc (z x : CatEntry) (m : List CatEntry) :
    z ∈ insertDesc x m ↔ z = x ∨ z ∈ m := by
  induction m with
  | nil => simp [insertDesc]
  | cons y ys ih =>
    rw [insertDesc]
    by_cases h : entryGe x y
    · rw [if_pos h]
      simp only [List.mem_cons]
    · rw [if_neg h]
      simp only [List.mem_cons, ih]
      tauto

theorem insertDesc_perm (x : CatEntry) (m : List CatEntry) :
    (insertDesc x m).Perm (x :: m) := by
  induction m with
  | nil => simp [insertDesc]
  | cons y ys ih =>
    rw [insertDesc]
    by_cases h : entryGe x y
    · rw [if_pos h]
    · rw [if_neg h]
      exact (ih.cons y).trans (List.Perm.swap x y ys)

theorem sortDesc_perm (l : List CatEntry) : (sortDesc l).Perm l := by
  induction l with
  | nil => exact List.Perm.refl _
  | cons x xs ih => exact (insertDesc_perm x (sortDesc xs)).trans (ih.cons x)

/-- A false comparator guard pins both values down as finite and strictly
ordered. -/
theorem entryGe_eq_false (x y : CatEntry) (h : entryGe x y = false) :
    ∃ a b : ℚ, x.value = some a ∧ y.value = some b ∧ a < b := by
  unfold entryGe at h
  cases hy : y.value with
  | none => rw [hy] at h; simp at h
  | some b =>
    cases hx : x.value with
    | none => rw [hy, hx] at h; simp at h
    | some a =>
      rw [hy, hx] at h
      exact ⟨a, b, rfl, rfl, lt_of_not_le (of_decide_eq_false h)⟩

theorem filter_insertDesc_of_ne (x : CatEntry) (m : List CatEntry) (v : OptQ)
    (hx : x.value ≠ v) :
    (insertDesc x m).filter (fun e => e.value == v) =
      m.filter (fun e => e.value == v) := by
  induction m with
  | nil => simp [insertDesc, List.filter_cons, hx]
  | cons y ys ih =>
    rw [insertDesc]
    by_cases h : entryGe x y
    · rw [if_pos h]
      simp [List.filter_cons, hx]
    · rw [if_neg h]
      simp [List.filter_cons, ih]

theorem filter_insertDesc_self (x : CatEntry) (m : List CatEntry) :
    (insertDesc x m).filter (fun e => e.value == x.value) =
      x :: m.filter (fun e => e.value == x.value) := by
  induction m with
  | nil => simp [insertDesc, List.filter_cons]
  | cons y ys ih =>
    rw [insertDesc]
    by_cases h : entryGe x y
    · rw [if_pos h]
      simp [List.filter_cons]
    · rw [if_neg h]
      obtain ⟨a, b, hxa, hyb, hab⟩ := entryGe_eq_false x y (Bool.eq_false_iff.mpr h)
      have hyne : (y.value == x.value) = false := by
        simp [hyb, hxa]
        exact fun hba => absurd hba.symm (ne_of_lt hab)
      simp [List.filter_cons, hyne, ih]

/-- Stability of the sort: for each value `v`, the subsequence of entries
whose total is `v` is unchanged by the sort — it stays in first-encountered
input order. -/
theorem sortDesc_filter (l : List CatEntry) (v : OptQ) :
    (sortDesc l).filter (fun e => e.value == v) =
      l.filter (fun e => e.value == v) := by
  induction l with
  | nil => rfl
  | cons x xs ih =>
    rw [sortDesc]
    by_cases hx : x.value = v
    · subst hx
      rw [filter_insertDesc_self, ih]
      simp [List.filter_cons]
    · rw [filter_insertDesc_of_ne x _ v hx, ih]
      simp [List.filter_cons, hx]

theorem insertDesc_pairwise (x : CatEntry) (m : List CatEntry)
    (hx : x.value.isSome) (hm : ∀ e ∈ m, e.value.isSome)
    (hp : m.Pairwise (fun a b => valQ b ≤ valQ a)) :
    (insertDesc x m).Pairwise (fun a b => valQ b ≤ valQ a) := by
  induction m with
  | nil => simp [insertDesc]
  | cons y ys ih =>
    rw [insertDesc]
    obtain ⟨a, ha⟩ := Option.isSome_iff_exists.mp hx
    obtain ⟨b, hb⟩ :=
      Option.isSome_iff_exists.mp (hm y (List.mem_cons_self y ys))
    rcases List.pairwise_cons.mp hp with ⟨hyys, hys⟩
    by_cases h : entryGe x y
    · rw [if_pos h]
      have hba : valQ y ≤ valQ x := by
        unfold entryGe at h
        rw [hb, ha] at h
        simp only [valQ, hb, ha, or0]
        exact of_decide_eq_true h
      refine List.Pairwise.cons ?_ hp
      intro z hz
      rcases List.mem_cons.mp hz with rfl | hz'
      · exact hba
      · exact le_trans (hyys z hz') hba
    · rw [if_neg h]
      obtain ⟨a', b', hxa, hyb, hab⟩ := entryGe_eq_false x y (Bool.eq_false_iff.mpr h)
      have hxy : valQ x ≤ valQ y := by
        simp only [valQ, hxa, hyb, or0]
        exact le_of_lt hab
      refine List.Pairwise.cons ?_
        (ih (fun e he => hm e (List.mem_cons_of_mem _ he)) hys)
      intro z hz
      rcases (mem_insertDesc z x ys).mp hz with rfl | hz'
      · exact hxy
      · exact hyys z hz'

/-- The sorted breakdown is descending in its (finite) values. -/
theorem sortDesc_pairwise (l : List CatEntry) (hl : ∀ e ∈ l, e.value.isSome) :
    (sortDesc l).Pairwise (fun a b => valQ b ≤ valQ a) := by
  induction l with
  | nil => simp [sortDesc]
  | cons x xs ih =>
    rw [sortDesc]
    have hxs : ∀ e ∈ xs, e.value.isSome :=
      fun e he => hl e (List.mem_cons_of_mem _ he)
    refine insertDesc_pairwise x _ (hl x (List.mem_cons_self x xs)) ?_ (ih hxs)
    intro e he
    exact hxs e ((sortDesc_perm xs).mem_iff.mp he)

/- ───────── finiteness and sum conservation of the grouping ───────── -/

/-- If every record amount is finite, every bucket value stays finite. -/
theorem groupTotals_finite_aux (recs : List Expense) :
    ∀ acc : List (String × OptQ), (∀ r ∈ recs, r.amount.isSome) →
      (∀ kv ∈ acc, kv.2.isSome) →
      ∀ kv ∈ recs.foldl gstep acc, kv.2.isSome := by
  induction recs with
  | nil =>
    intro acc _ hacc kv hkv
    exact hacc kv hkv
  | cons r rest ih =>
    intro acc hrec hacc kv hkv
    rw [List.foldl_cons] at hkv
    refine ih (gstep acc r) (fun x hx => hrec x (List.mem_cons_of_mem _ hx))
      ?_ kv hkv
    intro p hp
    rcases mem_upsert p _ _ _ hp with rfl | hp'
    · obtain ⟨a, ha⟩ :=
        Option.isSome_iff_exists.mp (hrec r (List.mem_cons_self r rest))
      simp [ha, jsAdd]
    · exact hacc p hp'

theorem upsert_sum_none (k : String) (v : OptQ) (m : List (String × OptQ))
    (h : getVal m k = none) :
    ((upsert k v m).map (fun kv => or0 kv.2)).sum =
      (m.map (fun kv => or0 kv.2)).sum + or0 v := by
  induction m with
  | nil => simp [upsert]
  | cons p rest ih =>
    obtain ⟨k0, v0⟩ := p
    rw [getVal] at h
    by_cases h0 : k0 = k
    · rw [if_pos h0] at h
      simp at h
    · rw [if_neg h0] at h
      simp [upsert, h0, ih h]
      ring

theorem upsert_sum_some (k : String) (v w : OptQ) (m : List (String × OptQ))
    (h : getVal m k = some w) :
    ((upsert k v m).map (fun kv => or0 kv.2)).sum + or0 w =
      (m.map (fun kv => or0 kv.2)).sum + or0 v := by
  induction m with
  | nil => simp [getVal] at h
  | cons p rest ih =>
    obtain ⟨k0, v0⟩ := p
    rw [getVal] at h
    by_cases h0 : k0 = k
    · rw [if_pos h0] at h
      obtain rfl := Option.some.inj h
      simp [upsert, h0]
      ring
    · rw [if_neg h0] at h
      simp only [upsert, if_neg h0, List.map_cons, List.sum_cons]
      linarith [ih h]

/-- For finite amounts, each grouping step adds exactly the record's amount
to the total of all bucket values. -/
theorem groupTotals_sum_aux (recs : List Expense) :
    ∀ acc : List (String × OptQ), (∀ r ∈ recs, r.amount.isSome) →
      (∀ kv ∈ acc, kv.2.isSome) →
      ((recs.foldl gstep acc).map (fun kv => or0 kv.2)).sum =
        (acc.map (fun kv => or0 kv.2)).sum +
          (recs.map (fun e => or0 e.amount)).sum := by
  induction recs with
  | nil =>
    intro acc _ _
    simp
  | cons r rest ih =>
    intro acc hrec hacc
    rw [List.foldl_cons]
    have hrest : ∀ x ∈ rest, x.amount.isSome :=
      fun x hx => hrec x (List.mem_cons_of_mem _ hx)
    have hacc' : ∀ kv ∈ gstep acc r, kv.2.isSome := by
      intro p hp
      rcases mem_upsert p _ _ _ hp with rfl | hp'
      · obtain ⟨a, ha⟩ :=
          Option.isSome_iff_exists.mp (hrec r (List.mem_cons_self r rest))
        simp [ha, jsAdd]
      · exact hacc p hp'
    rw [ih (gstep acc r) hrest hacc']
    obtain ⟨a, ha⟩ :=
      Option.isSome_iff_exists.mp (hrec r (List.mem_cons_self r rest))
    have hsum : ((gstep acc r).map (fun kv => or0 kv.2)).sum =
        (acc.map (fun kv => or0 kv.2)).sum + a := by
      rw [gstep]
      cases hget : getVal acc r.categoryId with
      | none =>
        rw [upsert_sum_none _ _ _ hget]
        rw [show mapGetOr0 acc r.categoryId = 0 from by
          unfold mapGetOr0; rw [hget]]
        simp [ha, jsAdd, or0]
      | some w =>
        obtain ⟨qw, rfl⟩ : ∃ qw : ℚ, w = some qw :=
          Option.isSome_iff_exists.mp
            (hacc (r.categoryId, w) (getVal_mem _ _ _ hget))
        have hmg : mapGetOr0 acc r.categoryId = qw := by
          unfold mapGetOr0
          rw [hget]
          rfl
        rw [hmg]
        have hup := upsert_sum_some r.categoryId
          (jsAdd (some qw) r.amount) (some qw) acc hget
        rw [ha] at hup ⊢
        simp only [jsAdd, or0] at hup ⊢
        linarith [hup]
    rw [hsum, List.map_cons, List.sum_cons]
    simp only [ha, or0]
    ring

/-- Grouping by category conserves the (finite) total of the amounts. -/
theorem groupTotals_sum (recs : List Expense)
    (hfin : ∀ r ∈ recs, r.amount.isSome) :
    ((groupTotals recs).map (fun kv => or0 kv.2)).sum =
      (recs.map (fun e => or0 e.amount)).sum := by
  rw [groupTotals, groupTotals_sum_aux recs [] hfin (by simp)]
  simp

/-- Resolving names does not change the values of the entries. -/
theorem entriesOf_map_valQ (dflt : String) (recs : List Expense)
    (cmap : List (String × String)) :
    (entriesOf dflt recs cmap).map valQ =
      (groupTotals recs).map (fun kv => or0 kv.2) := by
  rw [entriesOf, List.map_map]
  rfl

/- ───────── lemmas for the monthly breakdown ───────── -/

theorem sumList_set (l : List OptQ) (a : OptQ) :
    ∀ i : Nat, i < l.length →
      sumList (l.set i (jsAdd (l.getD i (some 0)) a)) = jsAdd (sumList l) a := by
  induction l with
  | nil =>
    intro i hi
    simp at hi
  | cons x xs ih =>
    intro i hi
    cases i with
    | zero =>
      rw [List.getD_cons_zero,
        show (x :: xs).set 0 (jsAdd x a) = (jsAdd x a) :: xs from rfl,
        sumList_cons, sumList_cons, jsAdd_assoc, jsAdd_assoc,
        jsAdd_comm a (sumList xs)]
    | succ i' =>
      have hi' : i' < xs.length := by
        simpa using Nat.lt_of_succ_lt_succ (by simpa using hi)
      rw [List.getD_cons_succ,
        show (x :: xs).set (i' + 1) (jsAdd (xs.getD i' (some 0)) a) =
          x :: xs.set i' (jsAdd (xs.getD i' (some 0)) a) from rfl,
        sumList_cons, sumList_cons, ih i' hi', ← jsAdd_assoc]

theorem foldl_mstep_len (recs : List Expense) :
    ∀ arr : List OptQ, (recs.foldl Reports.mstep arr).length = arr.length := by
  induction recs with
  | nil => intro arr; rfl
  | cons r rest ih =>
    intro arr
    rw [List.foldl_cons, ih (Reports.mstep arr r), Reports.mstep,
      List.length_set]

/-- Accumulating the records into the month slots adds exactly the JS sum of
their amounts to the array's total. -/
theorem foldl_mstep_sum (recs : List Expense) :
    ∀ arr : List OptQ, (∀ r ∈ recs, r.date.month < arr.length) →
      sumList (recs.foldl Reports.mstep arr) =
        jsAdd (sumList arr) (sumList (recs.map Expense.amount)) := by
  induction recs with
  | nil =>
    intro arr _
    rw [List.map_nil, show sumList [] = some 0 from rfl, jsAdd_zero]
    rfl
  | cons r rest ih =>
    intro arr hm
    rw [List.foldl_cons]
    have hlen : r.date.month < arr.length := hm r (List.mem_cons_self r rest)
    have hmr : ∀ x ∈ rest, x.date.month < (Reports.mstep arr r).length := by
      intro x hx
      rw [Reports.mstep, List.length_set]
      exact hm x (List.mem_cons_of_mem _ hx)
    rw [ih (Reports.mstep arr r) hmr,
      show sumList (Reports.mstep arr r) = jsAdd (sumList arr) r.amount from
        sumList_set arr r.amount r.date.month hlen,
      List.map_cons, sumList_cons, jsAdd_assoc]

/-- C3 (counterexample): in the Dashboard breakdown the fallback label for a
record whose categoryId has no matching category is "Other", not the
"Unknown" the claim asserts: with one record of an unmatched category and an
empty lookup, the breakdown is `[{name := "Other", value := 50}]`. -/
theorem dashboard_unknown_label_counterexample :
    Dashboard.categoryData [⟨some 50, "x", ⟨2025, 0, 1⟩⟩] [] =
      [⟨"Other", some 50⟩] ∧ ("Other" : String) ≠ "Unknown" := by
  constructor
  · norm_num [Dashboard.categoryData, entriesOf, groupTotals, gstep, upsert,
      mapGetOr0_eq, getVal, nameOr_eq, sortDesc, insertDesc, jsAdd, or0]
  · decide

/-- C3 (amended): a record with a dangling categoryId is never dropped: it
appears in the breakdown under a sentinel label — "Unknown" in the Reports
breakdown but "Other" in the Dashboard breakdown — and the entry's value is
the bucket fold of all the amounts recorded under that categoryId. -/
theorem unmatched_category_bucket_amended (recs : List Expense)
    (cmap : List (String × String)) (id : String)
    (hmem : ∃ r ∈ recs, r.categoryId = id) (hno : getVal cmap id = none) :
    (∃ e ∈ Reports.categoryData recs cmap, e.name = "Unknown" ∧
      e.value = bucketFold (some 0) (recs.filter (fun r => r.categoryId == id))) ∧
    (∃ e ∈ Dashboard.categoryData recs cmap, e.name = "Other" ∧
      e.value = bucketFold (some 0) (recs.filter (fun r => r.categoryId == id))) := by
  obtain ⟨r0, hr0, hcat⟩ := hmem
  have hne : recs.filter (fun r => r.categoryId == id) ≠ [] :=
    List.ne_nil_of_mem (List.mem_filter.mpr ⟨hr0, by simp [hcat]⟩)
  have hval : getVal (groupTotals recs) id =
      some (bucketFold (some 0) (recs.filter (fun r => r.categoryId == id))) := by
    rw [groupTotals]
    exact getVal_foldl_gstep_none recs id [] rfl hne
  have hkv := getVal_mem _ _ _ hval
  have hname : ∀ dflt : String, nameOr cmap id dflt = dflt := by
    intro dflt
    unfold nameOr
    rw [hno]
  have hent : ∀ dflt : String,
      (⟨dflt, bucketFold (some 0)
        (recs.filter (fun r => r.categoryId == id))⟩ : CatEntry) ∈
        entriesOf dflt recs cmap := by
    intro dflt
    rw [entriesOf]
    refine List.mem_map.mpr ⟨_, hkv, ?_⟩
    rw [hname dflt]
  exact ⟨⟨_, ((sortDesc_perm _).mem_iff).mpr (hent "Unknown"), rfl, rfl⟩,
    ⟨_, ((sortDesc_perm _).mem_iff).mpr (hent "Other"), rfl, rfl⟩⟩

/-- C3 (witness): the amended statement at a concrete one-record store with
an empty category lookup. -/
theorem unmatched_category_bucket_amended_witness :
    (∃ e ∈ Reports.categoryData [⟨some 50, "x", ⟨2025, 0, 1⟩⟩] [],
      e.name = "Unknown" ∧
      e.value = bucketFold (some 0)
        (List.filter (fun r => r.categoryId == "x")
          [⟨some 50, "x", ⟨2025, 0, 1⟩⟩])) ∧
    (∃ e ∈ Dashboard.categoryData [⟨some 50, "x", ⟨2025, 0, 1⟩⟩] [],
      e.name = "Other" ∧
      e.value = bucketFold (some 0)
        (List.filter (fun r => r.categoryId == "x")
          [⟨some 50, "x", ⟨2025, 0, 1⟩⟩])) :=
  unmatched_category_bucket_amended [⟨some 50, "x", ⟨2025, 0, 1⟩⟩] [] "x"
    ⟨⟨some 50, "x", ⟨2025, 0, 1⟩⟩, by decide, rfl⟩ rfl

/-- C6: with finite amounts the ranked breakdown is sorted by descending
total; entries of equal total keep their first-encountered relative order
(for every value `v`, filtering the output at `v` gives exactly the
pre-sort, first-encountered-ordered entries at `v`); the output is a
permutation of the grouped entries (nothing dropped or duplicated); and on
totals {A: 300, B: 300, C: 100} with A encountered before B the ranking is
A, B, C. -/
theorem categoryData_sorted_stable (recs : List Expense)
    (cmap : List (String × String)) (hfin : ∀ r ∈ recs, r.amount.isSome) :
    (Reports.categoryData recs cmap).Pairwise (fun a b => valQ b ≤ valQ a) ∧
    (∀ v : OptQ, (Reports.categoryData recs cmap).filter
        (fun e => e.value == v) =
      (entriesOf "Unknown" recs cmap).filter (fun e => e.value == v)) ∧
    (Reports.categoryData recs cmap).Perm (entriesOf "Unknown" recs cmap) ∧
    Reports.categoryData
      [⟨some 200, "a", ⟨2025, 0, 1⟩⟩, ⟨some 300, "b", ⟨2025, 0, 2⟩⟩,
       ⟨some 100, "a", ⟨2025, 0, 3⟩⟩, ⟨some 100, "c", ⟨2025, 0, 4⟩⟩]
      [("a", "A"), ("b", "B"), ("c", "C")] =
      [⟨"A", some 300⟩, ⟨"B", some 300⟩, ⟨"C", some 100⟩] := by
  refine ⟨?_, ?_, ?_, ?_⟩
  · have hef : ∀ e ∈ entriesOf "Unknown" recs cmap, e.value.isSome := by
      intro e he
      rw [entriesOf] at he
      obtain ⟨kv, hkv, rfl⟩ := List.mem_map.mp he
      exact groupTotals_finite_aux recs [] hfin (by simp) kv hkv
    exact sortDesc_pairwise _ hef
  · intro v
    exact sortDesc_filter _ v
  · exact sortDesc_perm _
  · simp [Reports.categoryData, entriesOf, groupTotals, gstep, upsert,
      mapGetOr0_eq, getVal, nameOr_eq, sortDesc, insertDesc, entryGe, jsAdd, or0]
    norm_num

/-- C6 (witness): the sortedness/stability statement at a concrete
single-record collection. -/
theorem categoryData_sorted_stable_witness :
    (Reports.categoryData [⟨some 5, "k", ⟨2025, 0, 1⟩⟩] []).Pairwise
      (fun a b => valQ b ≤ valQ a) ∧
    (∀ v : OptQ,
      (Reports.categoryData [⟨some 5, "k", ⟨2025, 0, 1⟩⟩] []).filter
        (fun e => e.value == v) =
      (entriesOf "Unknown" [⟨some 5, "k", ⟨2025, 0, 1⟩⟩] []).filter
        (fun e => e.value == v)) ∧
    (Reports.categoryData [⟨some 5, "k", ⟨2025, 0, 1⟩⟩] []).Perm
      (entriesOf "Unknown" [⟨some 5, "k", ⟨2025, 0, 1⟩⟩] []) ∧
    Reports.categoryData
      [⟨some 200, "a", ⟨2025, 0, 1⟩⟩, ⟨some 300, "b", ⟨2025, 0, 2⟩⟩,
       ⟨some 100, "a", ⟨2025, 0, 3⟩⟩, ⟨some 100, "c", ⟨2025, 0, 4⟩⟩]
      [("a", "A"), ("b", "B"), ("c", "C")] =
      [⟨"A", some 300⟩, ⟨"B", some 300⟩, ⟨"C", some 100⟩] :=
  categoryData_sorted_stable [⟨some 5, "k", ⟨2025, 0, 1⟩⟩] [] (by decide)

/-- C8: with finite amounts, the sum of the values of the category breakdown
equals the period total over the same records — grouping conserves the
total. -/
theorem categoryData_sum_eq_total (recs : List Expense)
    (cmap : List (String × String)) (hfin : ∀ r ∈ recs, r.amount.isSome) :
    sumVals (Dashboard.categoryData recs cmap) = Dashboard.total recs := by
  have hgf : ∀ kv ∈ groupTotals recs, kv.2.isSome :=
    groupTotals_finite_aux recs [] hfin (by simp)
  have hef : ∀ e ∈ entriesOf "Other" recs cmap, e.value.isSome := by
    intro e he
    rw [entriesOf] at he
    obtain ⟨kv, hkv, rfl⟩ := List.mem_map.mp he
    exact hgf kv hkv
  have hsf : ∀ x ∈ (Dashboard.categoryData recs cmap).map CatEntry.value,
      x.isSome := by
    intro x hx
    obtain ⟨e, he, rfl⟩ := List.mem_map.mp hx
    exact hef e ((sortDesc_perm _).mem_iff.mp he)
  rw [sumVals, sumList_finite _ hsf, List.map_map]
  have h1 : ((Dashboard.categoryData recs cmap).map (or0 ∘ CatEntry.value)).sum =
      ((entriesOf "Other" recs cmap).map valQ).sum :=
    ((sortDesc_perm (entriesOf "Other" recs cmap)).map valQ).sum_eq
  rw [h1, entriesOf_map_valQ, groupTotals_sum recs hfin]
  have h2 : Dashboard.total recs = sumList (recs.map Expense.amount) := by
    rw [Dashboard.total, sumList, List.foldl_map]
  have h3 : ∀ x ∈ recs.map Expense.amount, x.isSome := by
    intro x hx
    obtain ⟨r, hr, rfl⟩ := List.mem_map.mp hx
    exact hfin r hr
  rw [h2, sumList_finite _ h3, List.map_map]
  rfl

/-- C8 (witness): sum conservation at a concrete two-category collection. -/
theorem categoryData_sum_eq_total_witness :
    sumVals (Dashboard.categoryData
      [⟨some 120, "a", ⟨2025, 0, 1⟩⟩, ⟨some 30, "b", ⟨2025, 0, 2⟩⟩,
       ⟨some 15, "a", ⟨2025, 0, 3⟩⟩] [("a", "A")]) =
    Dashboard.total
      [⟨some 120, "a", ⟨2025, 0, 1⟩⟩, ⟨some 30, "b", ⟨2025, 0, 2⟩⟩,
       ⟨some 15, "a", ⟨2025, 0, 3⟩⟩] :=
  categoryData_sum_eq_total
    [⟨some 120, "a", ⟨2025, 0, 1⟩⟩, ⟨some 30, "b", ⟨2025, 0, 2⟩⟩,
     ⟨some 15, "a", ⟨2025, 0, 3⟩⟩] [("a", "A")] (by decide)

/-- C9: whatever the year's records are (with the JS guarantee that
`getMonth()` is 0–11), the monthly breakdown has exactly 12 entries and the
JS sum of the 12 monthly amounts equals the yearly total computed from the
same records. -/
theorem monthlyData_twelve_sum (recs : List Expense)
    (hm : ∀ r ∈ recs, r.date.month < 12) :
    (Reports.monthlyData recs).length = 12 ∧
    sumList ((Reports.monthlyData recs).map Prod.snd) =
      Reports.totalYear recs := by
  constructor
  · rw [Reports.monthlyData, List.enum_length, Reports.monthlyArr,
      foldl_mstep_len]
    simp
  · rw [Reports.monthlyData, List.enum_map_snd, Reports.monthlyArr,
      foldl_mstep_sum recs _ (by simpa using hm),
      show sumList (List.replicate 12 (some (0 : ℚ))) = some 0 from by
        simp [sumList, List.replicate_succ, jsAdd],
      zero_jsAdd, sumList, List.foldl_map, Reports.totalYear]

/-- C9 (witness): the monthly breakdown law at a concrete two-record year. -/
theorem monthlyData_twelve_sum_witness :
    (Reports.monthlyData
      [⟨some 10, "a", ⟨2025, 3, 5⟩⟩, ⟨some 7, "b", ⟨2025, 11, 30⟩⟩]).length = 12 ∧
    sumList ((Reports.monthlyData
      [⟨some 10, "a", ⟨2025, 3, 5⟩⟩, ⟨some 7, "b", ⟨2025, 11, 30⟩⟩]).map
        Prod.snd) =
      Reports.totalYear
        [⟨some 10, "a", ⟨2025, 3, 5⟩⟩, ⟨some 7, "b", ⟨2025, 11, 30⟩⟩] :=
  monthlyData_twelve_sum
    [⟨some 10, "a", ⟨2025, 3, 5⟩⟩, ⟨some 7, "b", ⟨2025, 11, 30⟩⟩] (by decide)

end BudgetTracker
